import Mathlib

/-!
Verification of the `gpii-json-schema` validation core.

The source of record is `src/js/common/validate.js`: the z-schema based
validator component `gpii.schema.validator` with its static helpers
`sanitizeValidationErrors`, `sanitizeError`, `removeEmptySegments`,
`extractPathSegments`, `resolveOrCreateTargetFromPath` and `saveToPath`.
JavaScript objects are modelled as ordered association lists (JS objects
preserve insertion order); in-place mutation is modelled by explicit
state passing; a thrown `TypeError` (calling `push` on a non-array) is
modelled with `Option`.

The ajv-flavoured schema parser / error-overlay merge engine is exercised
by the repository's tests but its source is not part of this tree; where a
property is decided by that component it is modelled from the spec, and
each such definition carries a doc comment saying so.
-/

set_option autoImplicit false

universe u v

/-- Ordered association-list lookup: first binding for the key wins,
mirroring JavaScript property access on our object model. -/
def lookupAssoc {κ : Type u} {α : Type v} [DecidableEq κ] : List (κ × α) → κ → Option α
  | [], _ => none
  | (k, v) :: rest, key => if k = key then some v else lookupAssoc rest key

/-- Ordered association-list update: replaces the binding in place when the
key is present, appends a new binding at the end otherwise — exactly how
JavaScript property assignment behaves on insertion-ordered objects. -/
def setAssoc {κ : Type u} {α : Type v} [DecidableEq κ] : List (κ × α) → κ → α → List (κ × α)
  | [], key, v => [(key, v)]
  | (k, w) :: rest, key, v =>
    if k = key then (key, v) :: rest else (k, w) :: setAssoc rest key v

/-- Splitting a character list on a separator character, accumulating the
current segment in reverse. -/
def splitCharAux (c : Char) : List Char → List Char → List String
  | [], acc => [String.mk acc.reverse]
  | x :: xs, acc =>
    if x = c then String.mk acc.reverse :: splitCharAux c xs []
    else splitCharAux c xs (x :: acc)

/-- JavaScript `s.split(c)` for a single-character separator: `"#/".split("/")`
is `["#", ""]`, `"".split("/")` is `[""]`. -/
def splitChar (c : Char) (s : String) : List String := splitCharAux c s.toList []

/-- A node of the sanitized error report: a JavaScript array of message
strings (which, being a JS object, can also carry string-keyed properties)
or a plain JavaScript object. -/
inductive JsVal : Type where
  | arr : List String → List (String × JsVal) → JsVal
  | obj : List (String × JsVal) → JsVal

/-- The string-keyed properties of a node (for a JS array these are the
non-index properties; numeric indexing into array elements is outside the
error-map domain and not modelled). -/
def JsVal.props : JsVal → List (String × JsVal)
  | .arr _ ps => ps
  | .obj ps => ps

/-- The message elements of a node (empty for a plain object). -/
def JsVal.msgs : JsVal → List String
  | .arr ms _ => ms
  | .obj _ => []

/-- Whether the node is a JS array. -/
def JsVal.isArr : JsVal → Bool
  | .arr _ _ => true
  | .obj _ => false

/-- JavaScript property read `t[s]`.  Stored child nodes are always arrays
or objects, hence truthy, so `!t[s]` in the source corresponds exactly to
`getProp t s = none` here. -/
def getProp (t : JsVal) (s : String) : Option JsVal := lookupAssoc t.props s

/-- JavaScript property write `t[s] = v`. -/
def setProp (t : JsVal) (s : String) (v : JsVal) : JsVal :=
  match t with
  | .arr ms ps => .arr ms (setAssoc ps s v)
  | .obj ps => .obj (setAssoc ps s v)

/-- Pure read of the node a segment path points at, `none` when some
segment is missing. -/
def getAtPath : JsVal → List String → Option JsVal
  | t, [] => some t
  | t, s :: rest =>
    match getProp t s with
    | none => none
    | some c => getAtPath c rest

/-- The message sequence stored at a path ( `[]` when the path is missing
or points at a plain object). -/
def msgsAt (t : JsVal) (p : List String) : List String :=
  match getAtPath t p with
  | some (.arr ms _) => ms
  | _ => []

namespace gpii.schema.validator

/-- A raw z-schema validation error, as consumed by the sanitizer
(`code`, `params`, `message`, `path`).  `params` is `Option` because the
source guards on the field's presence (`error.params`); a present empty
array is truthy in JavaScript and is modelled as `some []`. -/
structure ZSchemaError : Type where
  code : String
  params : Option (List String)
  message : String
  path : String
deriving DecidableEq, Repr

/-- Source: `gpii.schema.validator.removeEmptySegments`.  The JavaScript
also rejects `undefined`/`null` elements, which cannot arise from
`String.prototype.split` and have no counterpart in `String`. -/
def removeEmptySegments (el : String) : Bool := el.length > 0

/-- Source: `gpii.schema.validator.extractPathSegments`.
`error.path.split("/") .filter(removeEmptySegments) .slice(1)`, then for
`OBJECT_MISSING_REQUIRED_PROPERTY` errors with a `params` field the
parameter names are concatenated onto the segments. -/
def extractPathSegments (error : ZSchemaError) : List String :=
  let segments := ((splitChar '/' error.path).filter (fun el => removeEmptySegments el)).drop 1
  match error.params with
  | some ps => if error.code = "OBJECT_MISSING_REQUIRED_PROPERTY" then segments ++ ps else segments
  | none => segments

/-- Source: `gpii.schema.validator.resolveOrCreateTargetFromPath`.  The
JavaScript walks (and mutates) `target` in place and returns a reference
to the node at the full path; the functional rendering returns the updated
tree together with that node. -/
def resolveOrCreateTargetFromPath (target : JsVal) (path : List String) : JsVal × JsVal :=
  match path with
  | [] => (target, target)
  | seg :: rest =>
    let child :=
      match getProp target seg with
      | some c => c
      | none => if rest.isEmpty then JsVal.arr [] [] else JsVal.obj []
    let r := resolveOrCreateTargetFromPath child rest
    (setProp target seg r.1, r.2)

/-- JavaScript `target.push(errorString)`: appends to an array, throws a
`TypeError` (modelled as `none`) on a plain object. -/
def pushMsg (t : JsVal) (s : String) : Option JsVal :=
  match t with
  | .arr ms ps => some (.arr (ms ++ [s]) ps)
  | .obj _ => none

/-- Pushing a message onto the node an existing path points at, writing the
result back (the functional counterpart of pushing through the alias
returned by `resolveOrCreateTargetFromPath`). -/
def pushAtPath (t : JsVal) (p : List String) (s : String) : Option JsVal :=
  match p with
  | [] => pushMsg t s
  | seg :: rest =>
    match getProp t seg with
    | none => none
    | some c => (pushAtPath c rest s).map (fun c' => setProp t seg c')

/-- The sanitized output shape `{ documentErrors: [], fieldErrors: {} }`. -/
structure ErrorMap : Type where
  documentErrors : List String
  fieldErrors : JsVal

/-- Source: `gpii.schema.validator.saveToPath`.  A non-empty path is
resolved/created inside `fieldErrors` and the message pushed onto the node
found there; an empty path pushes onto `documentErrors`. -/
def saveToPath (path : List String) (errorString : String) (errorMap : ErrorMap) : Option ErrorMap :=
  if path.isEmpty then
    some (ErrorMap.mk (errorMap.documentErrors ++ [errorString]) errorMap.fieldErrors)
  else
    let ft := (resolveOrCreateTargetFromPath errorMap.fieldErrors path).1
    (pushAtPath ft path errorString).map (fun ft' => ErrorMap.mk errorMap.documentErrors ft')

/-- Source: `gpii.schema.validator.sanitizeError`. -/
def sanitizeError (error : ZSchemaError) (errorMap : ErrorMap) : Option ErrorMap :=
  saveToPath (extractPathSegments error) error.message errorMap

/-- The `fluid.each` loop of `sanitizeValidationErrors`: errors processed
in order, a thrown `TypeError` aborting the traversal. -/
def sanitizeErrorsLoop : List ZSchemaError → ErrorMap → Option ErrorMap
  | [], m => some m
  | e :: rest, m =>
    match sanitizeError e m with
    | none => none
    | some m' => sanitizeErrorsLoop rest m'

/-- Source: `gpii.schema.validator.sanitizeValidationErrors`. -/
def sanitizeValidationErrors (errors : List ZSchemaError) : Option ErrorMap :=
  sanitizeErrorsLoop errors (ErrorMap.mk [] (JsVal.obj []))

/-- The boundary contract of the external z-schema engine obtained from
`that.getValidator()`: schema-set validation plus content validation, with
`getLastErrors` modelled as the error-producing components. -/
structure ExternalValidator (σ : Type u) (γ : Type v) : Type (max u v) where
  validateSchema : List σ → Bool
  schemaErrors : List σ → List ZSchemaError
  validateContent : γ → σ → Bool
  contentErrors : γ → σ → List ZSchemaError

/-- The ways `gpii.schema.validator.validate` can abort instead of
returning: `unknownSchema` is the `fluid.fail` for a `schemaKey` with no
schema content, `invalidSchemas` the `fluid.fail(validator.getLastErrors())`
when the loaded schema set itself fails validation, and `saveTypeError`
the `TypeError` thrown by pushing onto a non-array during sanitizing. -/
inductive ValidateFailure : Type where
  | unknownSchema : ValidateFailure
  | invalidSchemas : List ZSchemaError → ValidateFailure
  | saveTypeError : ValidateFailure

/-- Source: `gpii.schema.validator.validate`.  The component state
`that.schemaContents` is passed in and returned unchanged — the source body
contains no assignment to it, so the post-state is the pre-state.  A
successful run returns `Except.ok none` for valid content (`undefined` in
the source) and `Except.ok (some map)` for the sanitized failure report. -/
def validate {σ : Type u} {γ : Type v} (v : ExternalValidator σ γ)
    (schemaContents : List (String × σ)) (key : String) (content : γ) :
    List (String × σ) × Except ValidateFailure (Option ErrorMap) :=
  match lookupAssoc schemaContents key with
  | none => (schemaContents, Except.error ValidateFailure.unknownSchema)
  | some schema =>
    let allSchemas := schemaContents.map Prod.snd
    if v.validateSchema allSchemas then
      if v.validateContent content schema then (schemaContents, Except.ok none)
      else
        match sanitizeValidationErrors (v.contentErrors content schema) with
        | some m => (schemaContents, Except.ok (some m))
        | none => (schemaContents, Except.error ValidateFailure.saveTypeError)
    else (schemaContents, Except.error (ValidateFailure.invalidSchemas (v.schemaErrors allSchemas)))

/-- One-pass create-and-push: the composition of
`resolveOrCreateTargetFromPath` with the push through the returned alias,
fused into a single recursion (proved equal below). -/
def savePath (t : JsVal) (p : List String) (s : String) : Option JsVal :=
  match p with
  | [] => pushMsg t s
  | seg :: rest =>
    let child :=
      match getProp t seg with
      | some c => c
      | none => if rest.isEmpty then JsVal.arr [] [] else JsVal.obj []
    (savePath child rest s).map (fun c' => setProp t seg c')

end gpii.schema.validator

/-- The split/clean half of the spec's path derivation (§4.1/§4.5), as the
source actually performs it: split on the delimiter, drop empty segments,
then drop the first remaining segment (the `#` document-identity marker in
z-schema paths).  No `~0`/`~1` unescaping happens here. -/
def splitSegments (pointer : String) : List String :=
  ((splitChar '/' pointer).filter (fun el => el.length > 0)).drop 1

/-- Unescaping of one JSON-Pointer segment following the spec's words
(§4.1): `~1` becomes `/`, `~0` becomes `~`, any other use of `~` is a
malformed escape (`none` standing for `MalformedPointerError`). -/
def unescapeChars : List Char → Option (List Char)
  | [] => some []
  | '~' :: '0' :: rest => (unescapeChars rest).map (fun r => '~' :: r)
  | '~' :: '1' :: rest => (unescapeChars rest).map (fun r => '/' :: r)
  | '~' :: _ => none
  | c :: rest => (unescapeChars rest).map (fun r => c :: r)

/-- Unescaping of one segment as a string. -/
def unescapeSegment (s : String) : Option String :=
  (unescapeChars s.toList).map (fun cs => String.mk cs)

/-- The spec's `segmentsFromPointer` (§4.1), written from its words: split
on `/`, drop empty segments and the document-identity marker `#`, unescape
`~1` to `/` and `~0` to `~` in each segment, failing with
`MalformedPointerError` (`none`) on an invalid escape.  This is the
claimed behaviour, to be compared with the source's
`gpii.schema.validator.extractPathSegments`. -/
def segmentsFromPointerSpec (pointer : String) : Option (List String) :=
  ((splitChar '/' pointer).filter (fun s => decide (s ≠ "" ∧ s ≠ "#"))).mapM
    (fun s => unescapeSegment s)

namespace gpii.schema.parser

/-- One segment of a schema-side JSON-Pointer path: a property/keyword name
or a positional index inside a sequence-valued keyword such as `allOf`. -/
inductive PathSeg : Type where
  | key : String → PathSeg
  | idx : Nat → PathSeg
deriving DecidableEq, Repr

mutual
/-- Modelled from the spec: the dereferenced schema tree walked by the
Error-Overlay Merge Engine (§4.3), whose source (the ajv-flavoured parser)
is not part of this tree.  A node carries its `errors` metadata block
(keyword to message) and its named or positional children. -/
inductive SchemaNode : Type where
  | mk : List (String × String) → SchemaChildren → SchemaNode
/-- The ordered children of a schema node, each reached through one path
segment. -/
inductive SchemaChildren : Type where
  | nil : SchemaChildren
  | cons : PathSeg → SchemaNode → SchemaChildren → SchemaChildren
end

mutual
/-- Modelled from the spec: the recursive walk (§4.3) collecting one
`ErrorMessageIndex` entry per keyword in each node's `errors` block, keyed
by the node's pointer path extended with the keyword; children are walked
with the path extended by their segment. -/
def buildIndex (pfx : List PathSeg) : SchemaNode → List (List PathSeg × String)
  | .mk errs children =>
    errs.map (fun e => (pfx ++ [PathSeg.key e.1], e.2)) ++ buildIndexChildren pfx children
/-- The child half of the index walk. -/
def buildIndexChildren (pfx : List PathSeg) : SchemaChildren → List (List PathSeg × String)
  | .nil => []
  | .cons seg c rest => buildIndex (pfx ++ [seg]) c ++ buildIndexChildren pfx rest
end

/-- Positional children for a sequence-valued keyword: member `i` of the
sequence is reached through the positional segment `idx (start + i)`. -/
def childrenFrom : Nat → List SchemaNode → SchemaChildren
  | _, [] => SchemaChildren.nil
  | i, s :: rest => SchemaChildren.cons (PathSeg.idx i) s (childrenFrom (i + 1) rest)

/-- Modelled from the spec: an `allOf` composite node — each sub-schema in
the sequence is walked positionally, its index being part of the pointer
path (§4.3). -/
def allOfNode (subs : List SchemaNode) : SchemaNode :=
  SchemaNode.mk [] (childrenFrom 0 subs)

/-- Modelled from the spec: `merge` (§4.3) — overlays applied in order,
each later overlay's message for a `(pointerPath, keyword)` key overriding
an earlier one's, the base supplying the lowest-priority messages.  Lookup
is first-match, so higher-priority entries are placed in front. -/
def merge (base : SchemaNode) (overlays : List SchemaNode) : List (List PathSeg × String) :=
  overlays.foldl (fun acc ov => buildIndex [] ov ++ acc) (buildIndex [] base)

/-- Modelled from the spec: the message substitution of the Error Localizer
(§4.5) — look the schema path up in the index, keep the validator's own
message when no entry exists. -/
def localizeMessage (index : List (List PathSeg × String)) (schemaPath : List PathSeg)
    (fallback : String) : String :=
  (lookupAssoc index schemaPath).getD fallback

mutual
/-- Modelled from the spec: the constraint-only view of a schema — the
`errors` metadata is configuration-as-data, kept out of the external
validator's sight (§3, §9), so stripping every `errors` block yields
exactly what the constraint engine consumes. -/
def stripErrors : SchemaNode → SchemaNode
  | .mk _ children => SchemaNode.mk [] (stripErrorsChildren children)
/-- The child half of `stripErrors`. -/
def stripErrorsChildren : SchemaChildren → SchemaChildren
  | .nil => SchemaChildren.nil
  | .cons seg c rest => SchemaChildren.cons seg (stripErrors c) (stripErrorsChildren rest)
end

/-- A raw error of the ajv-flavoured validator boundary (§4.4): keyword,
data path, schema path, optional missing-property parameter, message. -/
structure AjvError : Type where
  keyword : String
  dataPath : String
  schemaPath : List PathSeg
  missingProperty : Option String
  message : String
deriving DecidableEq, Repr

/-- Modelled from the spec: one validation call of the ajv-flavoured
pipeline (§4.4 + §4.5) — the external engine sees only the constraint part
of the schema, an empty raw-error sequence yields the distinguished
"no errors" sentinel (`none`), and otherwise each error's message is
substituted through the schema's error-message index. -/
def specValidate {γ : Type u} (engine : SchemaNode → γ → List AjvError)
    (s : SchemaNode) (c : γ) : Option (List AjvError) :=
  let raw := engine (stripErrors s) c
  if raw.isEmpty then none
  else some (raw.map (fun e =>
    AjvError.mk e.keyword e.dataPath e.schemaPath e.missingProperty
      (localizeMessage (buildIndex [] s) e.schemaPath e.message)))

/-- The `testAllOf` definition of the repository's `evolved.json` test
schema: four `allOf` members, each carrying one `errors` message. -/
def evolvedTestAllOfSubs : List SchemaNode :=
  [SchemaNode.mk [("type", "The 'allOf' field must be a string.")] SchemaChildren.nil,
   SchemaNode.mk [("minLength", "The 'allOf' string must be at least four characters long.")]
     SchemaChildren.nil,
   SchemaNode.mk [("maxLength", "The 'allOf' string cannot be longer than nine characters.")]
     SchemaChildren.nil,
   SchemaNode.mk [("pattern", "The 'allOf' string must contain the word 'CAT'.")]
     SchemaChildren.nil]

end gpii.schema.parser

theorem lookupAssoc_setAssoc_self {κ : Type u} {α : Type v} [DecidableEq κ]
    (l : List (κ × α)) (k : κ) (v : α) : lookupAssoc (setAssoc l k v) k = some v := by
  induction l with
  | nil => simp [setAssoc, lookupAssoc]
  | cons hd tl ih =>
    by_cases h : hd.1 = k
    · simp [setAssoc, h, lookupAssoc]
    · simp [setAssoc, h, lookupAssoc, ih]

theorem lookupAssoc_setAssoc_ne {κ : Type u} {α : Type v} [DecidableEq κ]
    (l : List (κ × α)) (k k' : κ) (v : α) (h : k' ≠ k) :
    lookupAssoc (setAssoc l k v) k' = lookupAssoc l k' := by
  induction l with
  | nil =>
    have : k ≠ k' := fun hh => h hh.symm
    simp [setAssoc, lookupAssoc, this]
  | cons hd tl ih =>
    by_cases hk : hd.1 = k
    · subst hk
      have : hd.1 ≠ k' := fun hh => h hh.symm
      simp [setAssoc, lookupAssoc, this]
    · simp only [setAssoc, hk, if_false, lookupAssoc]
      by_cases hk' : hd.1 = k'
      · simp [hk']
      · simp [hk', ih]

theorem setAssoc_setAssoc_self {κ : Type u} {α : Type v} [DecidableEq κ]
    (l : List (κ × α)) (k : κ) (v w : α) :
    setAssoc (setAssoc l k v) k w = setAssoc l k w := by
  induction l with
  | nil => simp [setAssoc]
  | cons hd tl ih =>
    by_cases h : hd.1 = k
    · simp [setAssoc, h]
    · simp [setAssoc, h, ih]

theorem lookupAssoc_append {κ : Type u} {α : Type v} [DecidableEq κ]
    (l₁ l₂ : List (κ × α)) (k : κ) :
    lookupAssoc (l₁ ++ l₂) k =
      (match lookupAssoc l₁ k with
       | some v => some v
       | none => lookupAssoc l₂ k) := by
  induction l₁ with
  | nil => simp [lookupAssoc]
  | cons hd tl ih =>
    by_cases h : hd.1 = k
    · simp [lookupAssoc, h]
    · simp [lookupAssoc, h, ih]

theorem lookupAssoc_eq_none {κ : Type u} {α : Type v} [DecidableEq κ]
    (l : List (κ × α)) (k : κ) (h : ∀ kv ∈ l, kv.1 ≠ k) : lookupAssoc l k = none := by
  induction l with
  | nil => rfl
  | cons hd tl ih =>
    have h1 : hd.1 ≠ k := h hd (List.mem_cons_self hd tl)
    simp [lookupAssoc, h1]
    exact ih (fun kv hkv => h kv (List.mem_cons_of_mem hd hkv))

theorem getProp_setProp_self (t : JsVal) (s : String) (v : JsVal) :
    getProp (setProp t s v) s = some v := by
  cases t <;> simp [getProp, setProp, JsVal.props, lookupAssoc_setAssoc_self]

theorem getProp_setProp_ne (t : JsVal) (s s' : String) (v : JsVal) (h : s' ≠ s) :
    getProp (setProp t s v) s' = getProp t s' := by
  cases t <;> simp [getProp, setProp, JsVal.props, lookupAssoc_setAssoc_ne _ _ _ _ h]

theorem setProp_setProp_self (t : JsVal) (s : String) (v w : JsVal) :
    setProp (setProp t s v) s w = setProp t s w := by
  cases t <;> simp [setProp, setAssoc_setAssoc_self]

theorem msgs_setProp (t : JsVal) (s : String) (v : JsVal) :
    (setProp t s v).msgs = t.msgs := by
  cases t <;> rfl

theorem isArr_setProp (t : JsVal) (s : String) (v : JsVal) :
    (setProp t s v).isArr = t.isArr := by
  cases t <;> rfl

theorem msgsAt_nil (t : JsVal) : msgsAt t [] = t.msgs := by
  cases t <;> rfl

theorem eq_obj_of_isArr_false (v : JsVal) (h : v.isArr = false) : ∃ ps, v = JsVal.obj ps := by
  cases v with
  | arr ms ps => simp [JsVal.isArr] at h
  | obj ps => exact ⟨ps, rfl⟩

theorem getAtPath_obj_nil (p : List String) (h : p ≠ []) :
    getAtPath (JsVal.obj []) p = none := by
  cases p with
  | nil => exact absurd rfl h
  | cons s rest => simp [getAtPath, getProp, JsVal.props, lookupAssoc]

namespace gpii.schema.validator

theorem roc_nil (t : JsVal) : resolveOrCreateTargetFromPath t [] = (t, t) := rfl

theorem roc_cons_some (t c : JsVal) (seg : String) (rest : List String)
    (h : getProp t seg = some c) :
    resolveOrCreateTargetFromPath t (seg :: rest) =
      (setProp t seg (resolveOrCreateTargetFromPath c rest).1,
       (resolveOrCreateTargetFromPath c rest).2) := by
  simp [resolveOrCreateTargetFromPath, h]

theorem roc_cons_none (t : JsVal) (seg : String) (rest : List String)
    (h : getProp t seg = none) :
    resolveOrCreateTargetFromPath t (seg :: rest) =
      (setProp t seg
        (resolveOrCreateTargetFromPath (if rest.isEmpty then JsVal.arr [] [] else JsVal.obj []) rest).1,
       (resolveOrCreateTargetFromPath (if rest.isEmpty then JsVal.arr [] [] else JsVal.obj []) rest).2) := by
  simp [resolveOrCreateTargetFromPath, h]

theorem savePath_cons_some (t c : JsVal) (seg : String) (rest : List String) (s : String)
    (h : getProp t seg = some c) :
    savePath t (seg :: rest) s = (savePath c rest s).map (fun c' => setProp t seg c') := by
  simp [savePath, h]

theorem savePath_cons_none (t : JsVal) (seg : String) (rest : List String) (s : String)
    (h : getProp t seg = none) :
    savePath t (seg :: rest) s =
      (savePath (if rest.isEmpty then JsVal.arr [] [] else JsVal.obj []) rest s).map
        (fun c' => setProp t seg c') := by
  simp [savePath, h]

/-- The first component of `resolveOrCreateTargetFromPath` keeps the root
node's kind: an array stays an array, an object stays an object. -/
theorem roc_fst_isArr (p : List String) (t : JsVal) :
    ((resolveOrCreateTargetFromPath t p).1).isArr = t.isArr := by
  cases p with
  | nil => rfl
  | cons seg rest =>
    cases h : getProp t seg with
    | some c => rw [roc_cons_some t c seg rest h]; exact isArr_setProp _ _ _
    | none => rw [roc_cons_none t seg rest h]; exact isArr_setProp _ _ _

/-- The first component of `resolveOrCreateTargetFromPath` keeps the root
node's messages. -/
theorem roc_fst_msgs (p : List String) (t : JsVal) :
    ((resolveOrCreateTargetFromPath t p).1).msgs = t.msgs := by
  cases p with
  | nil => rfl
  | cons seg rest =>
    cases h : getProp t seg with
    | some c => rw [roc_cons_some t c seg rest h]; exact msgs_setProp _ _ _
    | none => rw [roc_cons_none t seg rest h]; exact msgs_setProp _ _ _

/-- After `resolveOrCreateTargetFromPath`, the full path exists in the
updated tree and points at the returned node. -/
theorem getAtPath_roc (p : List String) (t : JsVal) :
    getAtPath (resolveOrCreateTargetFromPath t p).1 p =
      some (resolveOrCreateTargetFromPath t p).2 := by
  induction p generalizing t with
  | nil => rfl
  | cons seg rest ih =>
    cases h : getProp t seg with
    | some c =>
      rw [roc_cons_some t c seg rest h]
      simp [getAtPath, getProp_setProp_self, ih]
    | none =>
      rw [roc_cons_none t seg rest h]
      simp [getAtPath, getProp_setProp_self, ih]

/-- Pushing through the alias returned by `resolveOrCreateTargetFromPath`
is the fused create-and-push. -/
theorem pushAtPath_roc (p : List String) (t : JsVal) (s : String) :
    pushAtPath (resolveOrCreateTargetFromPath t p).1 p s = savePath t p s := by
  induction p generalizing t with
  | nil => rfl
  | cons seg rest ih =>
    cases h : getProp t seg with
    | some c =>
      rw [roc_cons_some t c seg rest h]
      simp only [pushAtPath, getProp_setProp_self]
      rw [savePath_cons_some t c seg rest s h, ← ih c]
      cases pushAtPath (resolveOrCreateTargetFromPath c rest).1 rest s with
      | none => rfl
      | some c' => simp [setProp_setProp_self]
    | none =>
      rw [roc_cons_none t seg rest h]
      simp only [pushAtPath, getProp_setProp_self]
      rw [savePath_cons_none t seg rest s h, ← ih]
      cases pushAtPath
          (resolveOrCreateTargetFromPath (if rest.isEmpty then JsVal.arr [] [] else JsVal.obj []) rest).1
          rest s with
      | none => rfl
      | some c' => simp [setProp_setProp_self]

/-- `savePath` appends the message to the sequence at the target path. -/
theorem savePath_msgsAt (p : List String) (t t' : JsVal) (s : String)
    (h : savePath t p s = some t') : msgsAt t' p = msgsAt t p ++ [s] := by
  induction p generalizing t t' with
  | nil =>
    cases t with
    | arr ms ps =>
      simp [savePath, pushMsg] at h
      subst h
      simp [msgsAt, getAtPath]
    | obj ps => simp [savePath, pushMsg] at h
  | cons seg rest ih =>
    cases hg : getProp t seg with
    | some c =>
      rw [savePath_cons_some t c seg rest s hg] at h
      cases hc : savePath c rest s with
      | none => rw [hc] at h; simp at h
      | some c' =>
        rw [hc] at h
        simp at h
        subst h
        have h1 : msgsAt (setProp t seg c') (seg :: rest) = msgsAt c' rest := by
          simp [msgsAt, getAtPath, getProp_setProp_self]
        have h2 : msgsAt t (seg :: rest) = msgsAt c rest := by
          simp [msgsAt, getAtPath, hg]
        rw [h1, h2, ih c c' hc]
    | none =>
      rw [savePath_cons_none t seg rest s hg] at h
      cases hc : savePath (if rest.isEmpty then JsVal.arr [] [] else JsVal.obj []) rest s with
      | none => rw [hc] at h; simp at h
      | some c' =>
        rw [hc] at h
        simp at h
        subst h
        have h1 : msgsAt (setProp t seg c') (seg :: rest) = msgsAt c' rest := by
          simp [msgsAt, getAtPath, getProp_setProp_self]
        have h2 : msgsAt t (seg :: rest) = [] := by
          simp [msgsAt, getAtPath, hg]
        have h3 : msgsAt (if rest.isEmpty then JsVal.arr [] [] else JsVal.obj []) rest = [] := by
          cases rest with
          | nil => simp [msgsAt, getAtPath, JsVal.msgs]
          | cons r rs =>
            simp [List.isEmpty, msgsAt, getAtPath, getProp, JsVal.props, lookupAssoc]
        rw [h1, h2, ih _ c' hc, h3]

/-- `savePath` leaves the message sequence at every other path unchanged. -/
theorem savePath_msgsAt_ne (p : List String) (t t' : JsVal) (s : String) (q : List String)
    (h : savePath t p s = some t') (hq : q ≠ p) : msgsAt t' q = msgsAt t q := by
  induction p generalizing t t' q with
  | nil =>
    cases t with
    | arr ms ps =>
      simp [savePath, pushMsg] at h
      subst h
      cases q with
      | nil => exact absurd rfl hq
      | cons u qs => simp [msgsAt, getAtPath, getProp, JsVal.props]
    | obj ps => simp [savePath, pushMsg] at h
  | cons seg rest ih =>
    have step :
        ∀ child c', getProp t seg = some child ∨
            (getProp t seg = none ∧
              child = (if rest.isEmpty then JsVal.arr [] [] else JsVal.obj [])) →
          savePath child rest s = some c' → t' = setProp t seg c' →
          msgsAt (setProp t seg c') q = msgsAt t q := by
      intro child c' hchild hc ht'
      cases q with
      | nil =>
        rw [msgsAt_nil, msgsAt_nil, msgs_setProp]
      | cons u qs =>
        by_cases hu : u = seg
        · subst hu
          have hq2 : qs ≠ rest := by
            intro hh
            exact hq (by rw [hh])
          have hl : msgsAt (setProp t u c') (u :: qs) = msgsAt c' qs := by
            simp [msgsAt, getAtPath, getProp_setProp_self]
          rw [hl, ih child c' qs hc hq2]
          rcases hchild with hsome | ⟨hnone, hfresh⟩
          · simp [msgsAt, getAtPath, hsome]
          · subst hfresh
            have hr : msgsAt (if rest.isEmpty then JsVal.arr [] [] else JsVal.obj []) qs = [] := by
              cases hrest : rest with
              | nil =>
                cases qs with
                | nil => exact absurd rfl (by rw [hrest] at hq2; exact hq2)
                | cons w ws => simp [msgsAt, getAtPath, getProp, JsVal.props, lookupAssoc]
              | cons r rs =>
                cases qs with
                | nil => simp [List.isEmpty, msgsAt, getAtPath, JsVal.msgs]
                | cons w ws =>
                  simp [List.isEmpty, msgsAt, getAtPath, getProp, JsVal.props, lookupAssoc]
            rw [hr]
            simp [msgsAt, getAtPath, hnone]
        · have hl : getProp (setProp t seg c') u = getProp t u := getProp_setProp_ne t seg u c' hu
          simp [msgsAt, getAtPath, hl]
    cases hg : getProp t seg with
    | some c =>
      rw [savePath_cons_some t c seg rest s hg] at h
      cases hc : savePath c rest s with
      | none => rw [hc] at h; simp at h
      | some c' =>
        rw [hc] at h
        simp at h
        subst h
        exact step c c' (Or.inl hg) hc rfl
    | none =>
      rw [savePath_cons_none t seg rest s hg] at h
      cases hc : savePath (if rest.isEmpty then JsVal.arr [] [] else JsVal.obj []) rest s with
      | none => rw [hc] at h; simp at h
      | some c' =>
        rw [hc] at h
        simp at h
        subst h
        exact step _ c' (Or.inr ⟨hg, rfl⟩) hc rfl

/-- Whenever the target path does not point at a plain object, the fused
create-and-push succeeds and leaves an array node at the path holding the
old messages plus the new one. -/
theorem savePath_exists (p : List String) (t : JsVal) (s : String)
    (h : ∀ ps, getAtPath t p ≠ some (JsVal.obj ps)) :
    ∃ t' ps', savePath t p s = some t' ∧
      getAtPath t' p = some (JsVal.arr (msgsAt t p ++ [s]) ps') := by
  induction p generalizing t with
  | nil =>
    cases t with
    | arr ms ps =>
      refine ⟨JsVal.arr (ms ++ [s]) ps, ps, rfl, ?_⟩
      simp [getAtPath, msgsAt]
    | obj ps => exact absurd rfl (h ps)
  | cons seg rest ih =>
    cases hg : getProp t seg with
    | some c =>
      have hc : ∀ ps, getAtPath c rest ≠ some (JsVal.obj ps) := by
        intro ps hcon
        exact h ps (by simp [getAtPath, hg, hcon])
      obtain ⟨c', ps', hsave, hget⟩ := ih c hc
      refine ⟨setProp t seg c', ps', ?_, ?_⟩
      · rw [savePath_cons_some t c seg rest s hg, hsave]; rfl
      · have hm : msgsAt t (seg :: rest) = msgsAt c rest := by
          simp [msgsAt, getAtPath, hg]
        simp [getAtPath, getProp_setProp_self, hget, hm]
    | none =>
      have hc : ∀ ps,
          getAtPath (if rest.isEmpty then JsVal.arr [] [] else JsVal.obj []) rest ≠
            some (JsVal.obj ps) := by
        intro ps hcon
        cases rest with
        | nil => simp [getAtPath] at hcon
        | cons r rs =>
          simp [List.isEmpty, getAtPath, getProp, JsVal.props, lookupAssoc] at hcon
      obtain ⟨c', ps', hsave, hget⟩ := ih _ hc
      refine ⟨setProp t seg c', ps', ?_, ?_⟩
      · rw [savePath_cons_none t seg rest s hg, hsave]; rfl
      · have hm : msgsAt t (seg :: rest) = [] := by
          simp [msgsAt, getAtPath, hg]
        have hr : msgsAt (if rest.isEmpty then JsVal.arr [] [] else JsVal.obj []) rest = [] := by
          cases rest with
          | nil => simp [msgsAt, getAtPath, JsVal.msgs]
          | cons r rs =>
            simp [List.isEmpty, msgsAt, getAtPath, getProp, JsVal.props, lookupAssoc]
        rw [hr] at hget
        simp [getAtPath, getProp_setProp_self, hget, hm]

/-- On a non-empty path, `saveToPath` is the fused create-and-push inside
`fieldErrors`, with `documentErrors` untouched. -/
theorem saveToPath_of_ne_nil (p : List String) (s : String) (m : ErrorMap) (h : p ≠ []) :
    saveToPath p s m =
      (savePath m.fieldErrors p s).map (fun ft' => ErrorMap.mk m.documentErrors ft') := by
  cases p with
  | nil => exact absurd rfl h
  | cons seg rest =>
    simp only [saveToPath, List.isEmpty, pushAtPath_roc]
    rfl

/-- The segment derivation of `extractPathSegments`, phrased with the
standalone split/clean function. -/
theorem extractPathSegments_spec (e : ZSchemaError) :
    extractPathSegments e =
      (match e.params with
       | some ps =>
         if e.code = "OBJECT_MISSING_REQUIRED_PROPERTY" then splitSegments e.path ++ ps
         else splitSegments e.path
       | none => splitSegments e.path) := by
  cases e with
  | mk code params message path =>
    cases params <;> rfl

/-- A path wholly missing from the tree makes `resolveOrCreateTargetFromPath`
return a freshly created empty sequence node. -/
theorem roc_snd_of_missing (p : List String) (t : JsVal) (hp : p ≠ [])
    (h : getAtPath t p = none) :
    (resolveOrCreateTargetFromPath t p).2 = JsVal.arr [] [] := by
  induction p generalizing t with
  | nil => exact absurd rfl hp
  | cons seg rest ih =>
    cases hg : getProp t seg with
    | some c =>
      rw [roc_cons_some t c seg rest hg]
      have hc : getAtPath c rest = none := by
        simp [getAtPath, hg] at h
        exact h
      have hrne : rest ≠ [] := by
        intro hcon
        rw [hcon] at hc
        simp [getAtPath] at hc
      exact ih c hrne hc
    | none =>
      rw [roc_cons_none t seg rest hg]
      by_cases hrne : rest = []
      · subst hrne
        rfl
      · have hie : rest.isEmpty = false := by
          cases rest with
          | nil => exact absurd rfl hrne
          | cons r rs => rfl
        rw [hie]
        simp only [Bool.false_eq_true, if_false]
        exact ih (JsVal.obj []) hrne (getAtPath_obj_nil rest hrne)

/-- Every missing interior step of the path is created as a mapping node. -/
theorem roc_creates_interior (q₁ q₂ : List String) (t : JsVal) (hq : q₂ ≠ [])
    (h : getAtPath t q₁ = none) :
    ∃ ps, getAtPath (resolveOrCreateTargetFromPath t (q₁ ++ q₂)).1 q₁ =
      some (JsVal.obj ps) := by
  induction q₁ generalizing t with
  | nil => simp [getAtPath] at h
  | cons seg q₁' ih =>
    have hrne : q₁' ++ q₂ ≠ [] := by
      intro hcon
      exact hq (List.append_eq_nil.mp hcon).2
    have hie : (q₁' ++ q₂).isEmpty = false := by
      cases hc : q₁' ++ q₂ with
      | nil => exact absurd hc hrne
      | cons a b => rfl
    cases hg : getProp t seg with
    | some c =>
      have hc : getAtPath c q₁' = none := by
        simp [getAtPath, hg] at h
        exact h
      rw [List.cons_append, roc_cons_some t c seg (q₁' ++ q₂) hg]
      have hrw : getAtPath
          (setProp t seg (resolveOrCreateTargetFromPath c (q₁' ++ q₂)).1) (seg :: q₁') =
          getAtPath (resolveOrCreateTargetFromPath c (q₁' ++ q₂)).1 q₁' := by
        simp [getAtPath, getProp_setProp_self]
      rw [hrw]
      exact ih c hc
    | none =>
      rw [List.cons_append, roc_cons_none t seg (q₁' ++ q₂) hg, hie]
      simp only [if_false, Bool.false_eq_true]
      have hrw : getAtPath
          (setProp t seg (resolveOrCreateTargetFromPath (JsVal.obj []) (q₁' ++ q₂)).1)
            (seg :: q₁') =
          getAtPath (resolveOrCreateTargetFromPath (JsVal.obj []) (q₁' ++ q₂)).1 q₁' := by
        simp [getAtPath, getProp_setProp_self]
      rw [hrw]
      by_cases hq1 : q₁' = []
      · subst hq1
        obtain ⟨ps, hps⟩ :=
          eq_obj_of_isArr_false _ (roc_fst_isArr ([] ++ q₂) (JsVal.obj []))
        rw [List.nil_append] at hps
        exact ⟨ps, by simp [getAtPath, hps]⟩
      · exact ih (JsVal.obj []) (getAtPath_obj_nil q₁' hq1)

/-- Path steps that already exist are traversed, not replaced: node kind
and stored messages at every existing step survive the walk. -/
theorem roc_preserves_existing (q₁ q₂ : List String) (t v : JsVal)
    (h : getAtPath t q₁ = some v) :
    ∃ v', getAtPath (resolveOrCreateTargetFromPath t (q₁ ++ q₂)).1 q₁ = some v' ∧
      v'.isArr = v.isArr ∧ v'.msgs = v.msgs := by
  induction q₁ generalizing t v with
  | nil =>
    simp [getAtPath] at h
    subst h
    exact ⟨(resolveOrCreateTargetFromPath t q₂).1, rfl, roc_fst_isArr _ _, roc_fst_msgs _ _⟩
  | cons seg q₁' ih =>
    cases hg : getProp t seg with
    | some c =>
      have hc : getAtPath c q₁' = some v := by
        simp [getAtPath, hg] at h
        exact h
      rw [List.cons_append, roc_cons_some t c seg (q₁' ++ q₂) hg]
      have hrw : getAtPath
          (setProp t seg (resolveOrCreateTargetFromPath c (q₁' ++ q₂)).1) (seg :: q₁') =
          getAtPath (resolveOrCreateTargetFromPath c (q₁' ++ q₂)).1 q₁' := by
        simp [getAtPath, getProp_setProp_self]
      rw [hrw]
      exact ih c v hc
    | none => simp [getAtPath, hg] at h

/-- Processing a list of errors that all localize to the same non-empty
path appends their messages, in order, to the sequence at that path. -/
theorem sanitizeErrorsLoop_same_path (errors : List ZSchemaError) (m : ErrorMap)
    (p : List String) (hp : p ≠ []) (hall : ∀ e ∈ errors, extractPathSegments e = p)
    (hobj : ∀ ps, getAtPath m.fieldErrors p ≠ some (JsVal.obj ps)) :
    ∃ m', sanitizeErrorsLoop errors m = some m' ∧
      msgsAt m'.fieldErrors p = msgsAt m.fieldErrors p ++ errors.map (fun e => e.message) ∧
      m'.documentErrors = m.documentErrors := by
  induction errors generalizing m with
  | nil => exact ⟨m, rfl, by simp, rfl⟩
  | cons e rest ih =>
    have he : extractPathSegments e = p := hall e (List.mem_cons_self e rest)
    obtain ⟨t', ps', hsv, hget⟩ := savePath_exists p m.fieldErrors e.message hobj
    have hsave : sanitizeError e m = some (ErrorMap.mk m.documentErrors t') := by
      rw [sanitizeError, he, saveToPath_of_ne_nil p e.message m hp, hsv]
      rfl
    have hobj' : ∀ ps, getAtPath (ErrorMap.mk m.documentErrors t').fieldErrors p ≠
        some (JsVal.obj ps) := by
      intro ps hcon
      rw [show (ErrorMap.mk m.documentErrors t').fieldErrors = t' from rfl, hget] at hcon
      simp at hcon
    have hrest : ∀ e' ∈ rest, extractPathSegments e' = p :=
      fun e' he' => hall e' (List.mem_cons_of_mem e he')
    obtain ⟨m', hloop, hmsgs, hdoc⟩ := ih (ErrorMap.mk m.documentErrors t') hrest hobj'
    refine ⟨m', ?_, ?_, hdoc⟩
    · simp [sanitizeErrorsLoop, hsave, hloop]
    · have hm1 : msgsAt (ErrorMap.mk m.documentErrors t').fieldErrors p =
          msgsAt m.fieldErrors p ++ [e.message] := by
        show msgsAt t' p = _
        rw [msgsAt, hget]
      rw [hmsgs, hm1, List.append_assoc]
      rfl

end gpii.schema.validator

namespace gpii.schema.parser

mutual
/-- Every index entry produced below a node is keyed under that node's
pointer path. -/
theorem buildIndex_key_split (pfx : List PathSeg) (s : SchemaNode) :
    ∀ kv ∈ buildIndex pfx s, ∃ suf, kv.1 = pfx ++ suf :=
  match s with
  | .mk errs children => by
    intro kv hkv
    rw [buildIndex] at hkv
    rcases List.mem_append.mp hkv with hl | hr
    · obtain ⟨e, _, heq⟩ := List.mem_map.mp hl
      exact ⟨[PathSeg.key e.1], by rw [← heq]⟩
    · exact buildIndexChildren_key_split pfx children kv hr

/-- Every index entry produced below a child is keyed under the parent path
extended with that child's segment. -/
theorem buildIndexChildren_key_split (pfx : List PathSeg) (cs : SchemaChildren) :
    ∀ kv ∈ buildIndexChildren pfx cs, ∃ suf, kv.1 = pfx ++ suf :=
  match cs with
  | .nil => by
    intro kv hkv
    simp [buildIndexChildren] at hkv
  | .cons seg c rest => by
    intro kv hkv
    rw [buildIndexChildren] at hkv
    rcases List.mem_append.mp hkv with hl | hr
    · obtain ⟨suf, hsuf⟩ := buildIndex_key_split (pfx ++ [seg]) c kv hl
      exact ⟨seg :: suf, by rw [hsuf, List.append_assoc]; rfl⟩
    · obtain ⟨suf, hsuf⟩ := buildIndexChildren_key_split pfx rest kv hr
      exact ⟨suf, hsuf⟩
end

/-- Entries contributed by positional children carry their position inside
the key: member `j` of the sequence only ever produces keys passing
through the positional segment `idx (st + j)`. -/
theorem childrenFrom_key_split (subs : List SchemaNode) (st : Nat) (pfx : List PathSeg) :
    ∀ kv ∈ buildIndexChildren pfx (childrenFrom st subs),
      ∃ j suf, j < subs.length ∧ kv.1 = pfx ++ PathSeg.idx (st + j) :: suf := by
  induction subs generalizing st with
  | nil =>
    intro kv hkv
    simp [childrenFrom, buildIndexChildren] at hkv
  | cons s subs' ih =>
    intro kv hkv
    rw [childrenFrom, buildIndexChildren] at hkv
    rcases List.mem_append.mp hkv with hl | hr
    · obtain ⟨suf, hsuf⟩ := buildIndex_key_split (pfx ++ [PathSeg.idx st]) s kv hl
      refine ⟨0, suf, Nat.succ_pos _, ?_⟩
      rw [hsuf, List.append_assoc, Nat.add_zero]
      rfl
    · obtain ⟨j, suf, hj, hk⟩ := ih (st + 1) kv hr
      refine ⟨j + 1, suf, Nat.succ_lt_succ hj, ?_⟩
      rw [hk]
      have harith : st + 1 + j = st + (j + 1) := by omega
      rw [harith]

/-- Looking a key that passes through positional segment `idx (st + i)` up
in the index built from an indexed sequence of sub-schemas consults exactly
the entries of member `i` — the entries of every other member are keyed
through a different positional segment and can never match. -/
theorem lookup_childrenFrom (subs : List SchemaNode) (st i : Nat) (pfx rest : List PathSeg)
    (h : i < subs.length) :
    lookupAssoc (buildIndexChildren pfx (childrenFrom st subs))
        (pfx ++ PathSeg.idx (st + i) :: rest) =
      lookupAssoc (buildIndex (pfx ++ [PathSeg.idx (st + i)]) (subs.get ⟨i, h⟩))
        (pfx ++ PathSeg.idx (st + i) :: rest) := by
  induction subs generalizing st i with
  | nil => exact absurd h (Nat.not_lt_zero i)
  | cons s subs' ih =>
    rw [childrenFrom, buildIndexChildren, lookupAssoc_append]
    cases i with
    | zero =>
      simp only [Nat.add_zero]
      have hnone : lookupAssoc (buildIndexChildren pfx (childrenFrom (st + 1) subs'))
          (pfx ++ PathSeg.idx st :: rest) = none := by
        refine lookupAssoc_eq_none _ _ ?_
        intro kv hkv
        obtain ⟨j, suf, _, hk⟩ := childrenFrom_key_split subs' (st + 1) pfx kv hkv
        rw [hk]
        intro hcon
        have h2 := List.append_cancel_left hcon
        have h3 : PathSeg.idx (st + 1 + j) = PathSeg.idx st := (List.cons_eq_cons.mp h2).1
        have h4 : st + 1 + j = st := by injection h3
        omega
      have hget : (s :: subs').get ⟨0, h⟩ = s := rfl
      rw [hget]
      cases hA : lookupAssoc (buildIndex (pfx ++ [PathSeg.idx st]) s)
          (pfx ++ PathSeg.idx st :: rest) with
      | some v => simp [hA]
      | none => simp [hA, hnone]
    | succ i' =>
      have hi' : i' < subs'.length := Nat.lt_of_succ_lt_succ h
      have hfirst : lookupAssoc (buildIndex (pfx ++ [PathSeg.idx st]) s)
          (pfx ++ PathSeg.idx (st + (i' + 1)) :: rest) = none := by
        refine lookupAssoc_eq_none _ _ ?_
        intro kv hkv
        obtain ⟨suf, hk⟩ := buildIndex_key_split (pfx ++ [PathSeg.idx st]) s kv hkv
        rw [hk, List.append_assoc]
        intro hcon
        have h2 := List.append_cancel_left hcon
        have h3 : PathSeg.idx st = PathSeg.idx (st + (i' + 1)) :=
          (List.cons_eq_cons.mp h2).1
        have h4 : st = st + (i' + 1) := by injection h3
        omega
      have hget : (s :: subs').get ⟨i' + 1, h⟩ = subs'.get ⟨i', hi'⟩ := rfl
      rw [hget]
      simp only [hfirst]
      have harith : st + (i' + 1) = st + 1 + i' := by omega
      rw [harith]
      exact ih (st + 1) i' hi'

end gpii.schema.parser

namespace gpii.schema.validator

/-- Claim C4 counterexample: the spec's `segmentsFromPointer` unescapes
`~1` to `/` (and fails on invalid escapes such as `~2`), but the source's
`extractPathSegments` performs no escape handling at all: on the pointer
`#/deep~1slasher` the spec prescribes the single segment `deep/slasher`
while the code returns `deep~1slasher` verbatim, and on `#/bad~2` the spec
prescribes `MalformedPointerError` while the code succeeds. -/
theorem c4_counterexample :
    segmentsFromPointerSpec "#/deep~1slasher" = some ["deep/slasher"] ∧
    extractPathSegments (ZSchemaError.mk "PATTERN" none "msg" "#/deep~1slasher") =
      ["deep~1slasher"] ∧
    (["deep~1slasher"] : List String) ≠ ["deep/slasher"] ∧
    segmentsFromPointerSpec "#/bad~2" = none ∧
    extractPathSegments (ZSchemaError.mk "PATTERN" none "msg" "#/bad~2") = ["bad~2"] := by
  refine ⟨by decide, by decide, by decide, by decide, by decide⟩

/-- Claim C4 (amended): `extractPathSegments` splits the pointer on `/`,
drops empty segments, then drops the first remaining segment (the `#`
document-identity marker in z-schema paths); it performs no `~0`/`~1`
escape replacement and never fails; for required-property failures
carrying a `params` field the parameter names are appended as final
segments. -/
theorem c4_amended (e : ZSchemaError) :
    extractPathSegments e =
      (match e.params with
       | some ps =>
         if e.code = "OBJECT_MISSING_REQUIRED_PROPERTY" then splitSegments e.path ++ ps
         else splitSegments e.path
       | none => splitSegments e.path) :=
  extractPathSegments_spec e

/-- Claim C5: on a non-empty path, `resolveOrCreateTargetFromPath` walks
the tree segment by segment, returns the node located at the full path,
creates an empty sequence node for the final segment when the path is
missing and a mapping node for every missing interior segment, and
traverses segments already present without replacing them (their node kind
and stored messages survive). -/
theorem c5_resolve_or_create (t : JsVal) (p : List String) (hp : p ≠ []) :
    (getAtPath (resolveOrCreateTargetFromPath t p).1 p =
      some (resolveOrCreateTargetFromPath t p).2) ∧
    (getAtPath t p = none → (resolveOrCreateTargetFromPath t p).2 = JsVal.arr [] []) ∧
    (∀ q₁ q₂, p = q₁ ++ q₂ → q₂ ≠ [] → getAtPath t q₁ = none →
      ∃ ps, getAtPath (resolveOrCreateTargetFromPath t p).1 q₁ = some (JsVal.obj ps)) ∧
    (∀ q₁ q₂ v, p = q₁ ++ q₂ → getAtPath t q₁ = some v →
      ∃ v', getAtPath (resolveOrCreateTargetFromPath t p).1 q₁ = some v' ∧
        v'.isArr = v.isArr ∧ v'.msgs = v.msgs) := by
  refine ⟨getAtPath_roc p t, roc_snd_of_missing p t hp, ?_, ?_⟩
  · intro q₁ q₂ hpq hq h
    subst hpq
    exact roc_creates_interior q₁ q₂ t hq h
  · intro q₁ q₂ v hpq h
    subst hpq
    exact roc_preserves_existing q₁ q₂ t v h

/-- Witness for C5 at the example from the source comment:
`resolveOrCreateTargetFromPath({}, ["one","two","three"])` returns a fresh
empty sequence node. -/
theorem c5_witness :
    (resolveOrCreateTargetFromPath (JsVal.obj []) ["one", "two", "three"]).2 =
      JsVal.arr [] [] :=
  (c5_resolve_or_create (JsVal.obj []) ["one", "two", "three"] (by decide)).2.1 rfl

/-- Claim C6: an unregistered `schemaKey` makes `validate` fail with the
unknown-schema failure — for every external validator, so no validation is
attempted — and the shared schema contents are returned unchanged. -/
theorem c6_unknown_schema {σ : Type u} {γ : Type v}
    (vd : ExternalValidator σ γ) (sc : List (String × σ)) (key : String) (content : γ)
    (h : lookupAssoc sc key = none) :
    validate vd sc key content = (sc, Except.error ValidateFailure.unknownSchema) := by
  simp [validate, h]

/-- Witness for C6: an empty schema store rejects any key. -/
theorem c6_witness :
    validate
        (ExternalValidator.mk (fun _ => true) (fun _ => []) (fun _ _ => true) (fun _ _ => []))
        ([] : List (String × Unit)) "missing.json" () =
      ([], Except.error ValidateFailure.unknownSchema) :=
  c6_unknown_schema _ ([] : List (String × Unit)) "missing.json" () rfl

/-- Claim C9: before validating any content, `validate` validates the
entire set of loaded schema documents together; if that fails it aborts
with a thrown failure carrying the schema errors — never an ordinary
field-error report. -/
theorem c9_schemas_validated_first {σ : Type u} {γ : Type v}
    (vd : ExternalValidator σ γ) (sc : List (String × σ)) (key : String) (content : γ)
    (schema : σ) (hk : lookupAssoc sc key = some schema)
    (hs : vd.validateSchema (sc.map Prod.snd) = false) :
    validate vd sc key content =
      (sc, Except.error (ValidateFailure.invalidSchemas (vd.schemaErrors (sc.map Prod.snd)))) ∧
    ∀ r : Option ErrorMap, validate vd sc key content ≠ (sc, Except.ok r) := by
  have h1 : validate vd sc key content =
      (sc, Except.error (ValidateFailure.invalidSchemas (vd.schemaErrors (sc.map Prod.snd)))) := by
    simp [validate, hk, hs]
  refine ⟨h1, ?_⟩
  intro r hcon
  rw [h1] at hcon
  simp at hcon

/-- Witness for C9: a loaded schema set the engine rejects aborts the call
with the schema errors. -/
theorem c9_witness :
    validate
        (ExternalValidator.mk (fun _ => false)
          (fun _ => [ZSchemaError.mk "SCHEMA_VALIDATION" none "bad schema" "#/"])
          (fun _ _ => true) (fun _ _ => []))
        [("base.json", ())] "base.json" () =
      ([("base.json", ())],
        Except.error (ValidateFailure.invalidSchemas
          [ZSchemaError.mk "SCHEMA_VALIDATION" none "bad schema" "#/"])) :=
  (c9_schemas_validated_first _ [("base.json", ())] "base.json" () () rfl rfl).1

/-- Claim C10: saving one message only appends that string to the sequence
at the derived path — `documentErrors` and the message sequence at every
other path are unchanged, and `resolveOrCreateTargetFromPath` never
overwrites an existing node on the way. -/
theorem c10_save_frame (p : List String) (s : String) (m m' : ErrorMap)
    (hp : p ≠ []) (h : saveToPath p s m = some m') :
    m'.documentErrors = m.documentErrors ∧
    msgsAt m'.fieldErrors p = msgsAt m.fieldErrors p ++ [s] ∧
    ∀ q, q ≠ p → msgsAt m'.fieldErrors q = msgsAt m.fieldErrors q := by
  rw [saveToPath_of_ne_nil p s m hp] at h
  cases hsv : savePath m.fieldErrors p s with
  | none =>
    rw [hsv] at h
    simp at h
  | some ft' =>
    rw [hsv] at h
    simp at h
    subst h
    exact ⟨rfl, savePath_msgsAt p m.fieldErrors ft' s hsv,
      fun q hq => savePath_msgsAt_ne p m.fieldErrors ft' s q hsv hq⟩

/-- Witness for C10: appending at `a` leaves the sibling entry `b`
untouched. -/
theorem c10_witness :
    msgsAt (JsVal.obj [("a", JsVal.arr ["m1", "m2"] []), ("b", JsVal.arr ["x"] [])]) ["a"] =
      msgsAt (JsVal.obj [("a", JsVal.arr ["m1"] []), ("b", JsVal.arr ["x"] [])]) ["a"] ++
        ["m2"] ∧
    msgsAt (JsVal.obj [("a", JsVal.arr ["m1", "m2"] []), ("b", JsVal.arr ["x"] [])]) ["b"] =
      msgsAt (JsVal.obj [("a", JsVal.arr ["m1"] []), ("b", JsVal.arr ["x"] [])]) ["b"] := by
  have h := c10_save_frame ["a"] "m2"
      (ErrorMap.mk ["doc"] (JsVal.obj [("a", JsVal.arr ["m1"] []), ("b", JsVal.arr ["x"] [])]))
      (ErrorMap.mk ["doc"]
        (JsVal.obj [("a", JsVal.arr ["m1", "m2"] []), ("b", JsVal.arr ["x"] [])]))
      (by decide) rfl
  exact ⟨h.2.1, h.2.2 ["b"] (by decide)⟩

/-- Claim C1: the localizer derives the data-side path by splitting the
error path on the delimiter, appending, for required-property failures
carrying parameters, the missing property names as final segments; an
empty derived path appends the message to `documentErrors`, a non-empty
one resolves/creates the path inside `fieldErrors` and appends the message
to the sequence found there; in particular a document missing a top-level
required property localizes under `fieldErrors` at that property's name,
never under `documentErrors`. -/
theorem c1_localizer_routing (e : ZSchemaError) (m : ErrorMap) :
    (extractPathSegments e =
      (match e.params with
       | some ps =>
         if e.code = "OBJECT_MISSING_REQUIRED_PROPERTY" then splitSegments e.path ++ ps
         else splitSegments e.path
       | none => splitSegments e.path)) ∧
    (extractPathSegments e = [] →
      sanitizeError e m = some (ErrorMap.mk (m.documentErrors ++ [e.message]) m.fieldErrors)) ∧
    (∀ m', extractPathSegments e ≠ [] → sanitizeError e m = some m' →
      msgsAt m'.fieldErrors (extractPathSegments e) =
        msgsAt m.fieldErrors (extractPathSegments e) ++ [e.message] ∧
      m'.documentErrors = m.documentErrors) ∧
    sanitizeValidationErrors
        [ZSchemaError.mk "OBJECT_MISSING_REQUIRED_PROPERTY" (some ["shallowlyRequired"])
          "The 'shallowlyRequired' field is required." "#/"] =
      some (ErrorMap.mk [] (JsVal.obj [("shallowlyRequired",
        JsVal.arr ["The 'shallowlyRequired' field is required."] [])])) := by
  refine ⟨extractPathSegments_spec e, ?_, ?_, rfl⟩
  · intro h
    show saveToPath (extractPathSegments e) e.message m = _
    rw [h]
    rfl
  · intro m' hne h
    rw [show sanitizeError e m = saveToPath (extractPathSegments e) e.message m from rfl,
      saveToPath_of_ne_nil _ _ _ hne] at h
    cases hsv : savePath m.fieldErrors (extractPathSegments e) e.message with
    | none =>
      rw [hsv] at h
      simp at h
    | some ft' =>
      rw [hsv] at h
      simp at h
      subst h
      exact ⟨savePath_msgsAt _ _ _ _ hsv, rfl⟩

/-- Witness for C1 at a deep required-property failure. -/
theorem c1_witness :
    msgsAt
        (JsVal.obj [("deep", JsVal.obj [("deeplyRequired",
          JsVal.arr ["should have required property 'deeplyRequired'"] [])])])
        ["deep", "deeplyRequired"] =
      msgsAt (JsVal.obj []) ["deep", "deeplyRequired"] ++
        ["should have required property 'deeplyRequired'"] := by
  have h := (c1_localizer_routing
      (ZSchemaError.mk "OBJECT_MISSING_REQUIRED_PROPERTY" (some ["deeplyRequired"])
        "should have required property 'deeplyRequired'" "#/deep")
      (ErrorMap.mk [] (JsVal.obj []))).2.2.1
      (ErrorMap.mk []
        (JsVal.obj [("deep", JsVal.obj [("deeplyRequired",
          JsVal.arr ["should have required property 'deeplyRequired'"] [])])]))
      (by decide) rfl
  exact h.1

/-- Claim C7: raw errors that all localize to the same field path
accumulate their messages at that path in encounter order — exactly the
errors' messages in the order they were reported, with no deduplication
and no sorting. -/
theorem c7_accumulate_in_order (errors : List ZSchemaError) (p : List String)
    (hp : p ≠ []) (hall : ∀ e ∈ errors, extractPathSegments e = p) :
    ∃ m', sanitizeValidationErrors errors = some m' ∧
      msgsAt m'.fieldErrors p = errors.map (fun e => e.message) ∧
      m'.documentErrors = [] := by
  have hobj : ∀ ps, getAtPath (ErrorMap.mk [] (JsVal.obj [])).fieldErrors p ≠
      some (JsVal.obj ps) := by
    intro ps hcon
    rw [show (ErrorMap.mk [] (JsVal.obj [])).fieldErrors = JsVal.obj [] from rfl,
      getAtPath_obj_nil p hp] at hcon
    exact Option.noConfusion hcon
  obtain ⟨m', h1, h2, h3⟩ := sanitizeErrorsLoop_same_path errors
      (ErrorMap.mk [] (JsVal.obj [])) p hp hall hobj
  refine ⟨m', h1, ?_, h3⟩
  have hnil : msgsAt (ErrorMap.mk [] (JsVal.obj [])).fieldErrors p = [] := by
    show msgsAt (JsVal.obj []) p = []
    unfold msgsAt
    rw [getAtPath_obj_nil p hp]
  rw [h2, hnil, List.nil_append]

/-- Witness for C7: two errors at the same `password` path keep both
messages, in reported order. -/
theorem c7_witness :
    msgsAt (JsVal.obj [("password", JsVal.arr ["too short", "needs an uppercase letter"] [])])
        ["password"] =
      List.map (fun e => e.message)
        [ZSchemaError.mk "MIN_LENGTH" none "too short" "#/password",
         ZSchemaError.mk "PATTERN" none "needs an uppercase letter" "#/password"] := by
  obtain ⟨m', h1, h2, h3⟩ := c7_accumulate_in_order
      [ZSchemaError.mk "MIN_LENGTH" none "too short" "#/password",
       ZSchemaError.mk "PATTERN" none "needs an uppercase letter" "#/password"]
      ["password"] (by decide)
      (by
        intro e he
        simp at he
        rcases he with rfl | rfl <;> decide)
  have hval : sanitizeValidationErrors
      [ZSchemaError.mk "MIN_LENGTH" none "too short" "#/password",
       ZSchemaError.mk "PATTERN" none "needs an uppercase letter" "#/password"] =
      some (ErrorMap.mk []
        (JsVal.obj [("password", JsVal.arr ["too short", "needs an uppercase letter"] [])])) :=
    rfl
  rw [hval] at h1
  injection h1 with h1
  rw [← h1] at h2
  exact h2

end gpii.schema.validator

namespace gpii.schema.parser

/-- Claim C2: `merge` applies overlay-over-base precedence at every
`(pointerPath, keyword)` key — both defined yields the overlay's message,
base-only is inherited through the overlay, and with neither the index has
no entry so the raw validator message is used verbatim. -/
theorem c2_overlay_precedence (base overlay : SchemaNode) (k : List PathSeg) :
    (∀ m0 m1, lookupAssoc (buildIndex [] base) k = some m0 →
        lookupAssoc (buildIndex [] overlay) k = some m1 →
        lookupAssoc (merge base [overlay]) k = some m1) ∧
    (∀ m0, lookupAssoc (buildIndex [] base) k = some m0 →
        lookupAssoc (buildIndex [] overlay) k = none →
        lookupAssoc (merge base [overlay]) k = some m0) ∧
    (lookupAssoc (buildIndex [] base) k = none →
      lookupAssoc (buildIndex [] overlay) k = none →
      lookupAssoc (merge base [overlay]) k = none ∧
      ∀ fallback, localizeMessage (merge base [overlay]) k fallback = fallback) := by
  have hm : merge base [overlay] = buildIndex [] overlay ++ buildIndex [] base := rfl
  refine ⟨?_, ?_, ?_⟩
  · intro m0 m1 h0 h1
    rw [hm, lookupAssoc_append, h1]
  · intro m0 h0 h1
    rw [hm, lookupAssoc_append, h1, h0]
  · intro h0 h1
    have hn : lookupAssoc (merge base [overlay]) k = none := by
      rw [hm, lookupAssoc_append, h1, h0]
    exact ⟨hn, fun fallback => by simp [localizeMessage, hn]⟩

/-- Witness for C2 on a two-keyword base with a one-keyword overlay:
override, inheritance, and fall-through to the raw message. -/
theorem c2_witness :
    lookupAssoc
        (merge (SchemaNode.mk [("maxLength", "M0"), ("pattern", "P0")] SchemaChildren.nil)
          [SchemaNode.mk [("maxLength", "M1")] SchemaChildren.nil])
        [PathSeg.key "maxLength"] = some "M1" ∧
    lookupAssoc
        (merge (SchemaNode.mk [("maxLength", "M0"), ("pattern", "P0")] SchemaChildren.nil)
          [SchemaNode.mk [("maxLength", "M1")] SchemaChildren.nil])
        [PathSeg.key "pattern"] = some "P0" ∧
    localizeMessage
        (merge (SchemaNode.mk [("maxLength", "M0"), ("pattern", "P0")] SchemaChildren.nil)
          [SchemaNode.mk [("maxLength", "M1")] SchemaChildren.nil])
        [PathSeg.key "minLength"] "raw validator message" = "raw validator message" := by
  refine ⟨?_, ?_, ?_⟩
  · exact (c2_overlay_precedence
      (SchemaNode.mk [("maxLength", "M0"), ("pattern", "P0")] SchemaChildren.nil)
      (SchemaNode.mk [("maxLength", "M1")] SchemaChildren.nil)
      [PathSeg.key "maxLength"]).1 "M0" "M1" (by decide) (by decide)
  · exact (c2_overlay_precedence
      (SchemaNode.mk [("maxLength", "M0"), ("pattern", "P0")] SchemaChildren.nil)
      (SchemaNode.mk [("maxLength", "M1")] SchemaChildren.nil)
      [PathSeg.key "pattern"]).2.1 "P0" (by decide) (by decide)
  · exact ((c2_overlay_precedence
      (SchemaNode.mk [("maxLength", "M0"), ("pattern", "P0")] SchemaChildren.nil)
      (SchemaNode.mk [("maxLength", "M1")] SchemaChildren.nil)
      [PathSeg.key "minLength"]).2.2 (by decide) (by decide)).2 "raw validator message"

/-- Claim C8: a failure inside an `allOf` composite at sequence position
`i` is localized through the index entries of sub-schema `i` alone — the
positional segment is part of the pointer path used for lookup, so no
other position's entry can ever be consulted. -/
theorem c8_allOf_positional (pfx rest : List PathSeg) (subs : List SchemaNode) (i : Nat)
    (h : i < subs.length) :
    lookupAssoc (buildIndex pfx (allOfNode subs)) (pfx ++ PathSeg.idx i :: rest) =
      lookupAssoc (buildIndex (pfx ++ [PathSeg.idx i]) (subs.get ⟨i, h⟩))
        (pfx ++ PathSeg.idx i :: rest) ∧
    ∀ fb, localizeMessage (buildIndex pfx (allOfNode subs)) (pfx ++ PathSeg.idx i :: rest) fb =
      localizeMessage (buildIndex (pfx ++ [PathSeg.idx i]) (subs.get ⟨i, h⟩))
        (pfx ++ PathSeg.idx i :: rest) fb := by
  have hbase : buildIndex pfx (allOfNode subs) =
      buildIndexChildren pfx (childrenFrom 0 subs) := by
    rw [allOfNode, buildIndex]
    rfl
  have hmain := lookup_childrenFrom subs 0 i pfx rest h
  rw [Nat.zero_add] at hmain
  rw [hbase]
  exact ⟨hmain, fun fb => by rw [localizeMessage, localizeMessage, hmain]⟩

/-- Witness for C8 at `evolved.json`'s `testAllOf`: the `maxLength` failure
at `allOf` position 2 resolves to position 2's message. -/
theorem c8_witness :
    lookupAssoc
        (buildIndex [PathSeg.key "definitions", PathSeg.key "testAllOf", PathSeg.key "allOf"]
          (allOfNode evolvedTestAllOfSubs))
        ([PathSeg.key "definitions", PathSeg.key "testAllOf", PathSeg.key "allOf"] ++
          PathSeg.idx 2 :: [PathSeg.key "maxLength"]) =
      lookupAssoc
        (buildIndex
          ([PathSeg.key "definitions", PathSeg.key "testAllOf", PathSeg.key "allOf"] ++
            [PathSeg.idx 2])
          (evolvedTestAllOfSubs.get ⟨2, by decide⟩))
        ([PathSeg.key "definitions", PathSeg.key "testAllOf", PathSeg.key "allOf"] ++
          PathSeg.idx 2 :: [PathSeg.key "maxLength"]) ∧
    lookupAssoc
        (buildIndex [PathSeg.key "definitions", PathSeg.key "testAllOf", PathSeg.key "allOf"]
          (allOfNode evolvedTestAllOfSubs))
        ([PathSeg.key "definitions", PathSeg.key "testAllOf", PathSeg.key "allOf"] ++
          PathSeg.idx 2 :: [PathSeg.key "maxLength"]) =
      some "The 'allOf' string cannot be longer than nine characters." := by
  refine ⟨(c8_allOf_positional
      [PathSeg.key "definitions", PathSeg.key "testAllOf", PathSeg.key "allOf"]
      [PathSeg.key "maxLength"] evolvedTestAllOfSubs 2 (by decide)).1, by decide⟩

end gpii.schema.parser

/-- Claim C3: a record satisfying all constraints of its schema makes
`validate` return the "no errors" sentinel (`Except.ok none`, the
counterpart of the source's `undefined`), which is distinct from an empty
field-error tree; and, in the spec-modelled ajv pipeline, `errors`
metadata never itself causes a validation failure — two schemas with the
same constraint part reach the sentinel in exactly the same cases. -/
theorem c3_valid_sentinel :
    (∀ {σ : Type u} {γ : Type v} (vd : gpii.schema.validator.ExternalValidator σ γ)
        (sc : List (String × σ)) (key : String) (content : γ) (schema : σ),
      lookupAssoc sc key = some schema →
      vd.validateSchema (sc.map Prod.snd) = true →
      vd.validateContent content schema = true →
      gpii.schema.validator.validate vd sc key content = (sc, Except.ok none)) ∧
    ((Except.ok none :
        Except gpii.schema.validator.ValidateFailure
          (Option gpii.schema.validator.ErrorMap)) ≠
      Except.ok (some (gpii.schema.validator.ErrorMap.mk [] (JsVal.obj [])))) ∧
    (∀ {γ : Type u} (engine : gpii.schema.parser.SchemaNode → γ →
          List gpii.schema.parser.AjvError)
        (s s' : gpii.schema.parser.SchemaNode) (c : γ),
      gpii.schema.parser.stripErrors s' = gpii.schema.parser.stripErrors s →
      (gpii.schema.parser.specValidate engine s' c = none ↔
        gpii.schema.parser.specValidate engine s c = none)) := by
  refine ⟨?_, ?_, ?_⟩
  · intro σ γ vd sc key content schema hk hs hc
    simp [gpii.schema.validator.validate, hk, hs, hc]
  · intro hcon
    injection hcon with hcon
    exact Option.noConfusion hcon
  · intro γ engine s s' c h
    by_cases hE : (engine (gpii.schema.parser.stripErrors s) c).isEmpty = true
    · simp [gpii.schema.parser.specValidate, h, hE]
    · simp [gpii.schema.parser.specValidate, h, hE]

/-- Witness for C3: a trivially satisfied schema set yields the sentinel,
and attaching an `errors` block to a schema leaves the sentinel intact. -/
theorem c3_witness :
    gpii.schema.validator.validate
        (gpii.schema.validator.ExternalValidator.mk (fun _ => true) (fun _ => [])
          (fun _ _ => true) (fun _ _ => []))
        [("evolved.json", ())] "evolved.json" () =
      ([("evolved.json", ())], Except.ok none) ∧
    gpii.schema.parser.specValidate (fun _ _ => [])
        (gpii.schema.parser.SchemaNode.mk
          [("minLength", "You must enter a test string that is at least four characters long.")]
          gpii.schema.parser.SchemaChildren.nil) () = none := by
  constructor
  · exact c3_valid_sentinel.{0, 0}.1 _ [("evolved.json", ())] "evolved.json" () () rfl rfl rfl
  · exact (c3_valid_sentinel.{0, 0}.2.2 (fun _ _ => [])
      (gpii.schema.parser.SchemaNode.mk [] gpii.schema.parser.SchemaChildren.nil)
      (gpii.schema.parser.SchemaNode.mk
        [("minLength", "You must enter a test string that is at least four characters long.")]
        gpii.schema.parser.SchemaChildren.nil)
      () rfl).mpr rfl
